import Mathlib

/-!
Shallow embedding of the bakker backup server's credential vault, backup-identity
registry, cron validator, status-liveness probe and crontab generator
(`src/server/static/dev-reload.js`, legacy generator in `src/server/index.ts`),
with theorems settling the specification claims.
-/

namespace Bakker

/-! ### Association lists

JavaScript `Map` / plain objects are modelled as association lists in insertion
order; `mapSet` replaces the binding in place (like `Map.prototype.set` /
property assignment) and `mapFind` returns the first binding.
-/

/-- First binding for `k`, like `Map.prototype.get`. -/
def mapFind {β : Type} : List (String × β) → String → Option β
  | [], _ => none
  | (k', v) :: rest, k => if k' = k then some v else mapFind rest k

/-- Replace the binding for `k` in place, or append it, like `Map.prototype.set`. -/
def mapSet {β : Type} : List (String × β) → String → β → List (String × β)
  | [], k, v => [(k, v)]
  | (k', v') :: rest, k, v =>
    if k' = k then (k, v) :: rest else (k', v') :: mapSet rest k v

theorem mapFind_mapSet_self {β : Type} (m : List (String × β)) (k : String) (v : β) :
    mapFind (mapSet m k v) k = some v := by
  induction m with
  | nil => simp [mapSet, mapFind]
  | cons p rest ih =>
    obtain ⟨k', v'⟩ := p
    by_cases h : k' = k
    · simp [mapSet, mapFind, h]
    · simp [mapSet, mapFind, h, ih]

theorem mapFind_mapSet_ne {β : Type} (m : List (String × β)) (k k' : String) (v : β)
    (h : k' ≠ k) : mapFind (mapSet m k v) k' = mapFind m k' := by
  induction m with
  | nil => simp [mapSet, mapFind, Ne.symm h]
  | cons p rest ih =>
    obtain ⟨k₀, v₀⟩ := p
    by_cases h0 : k₀ = k
    · subst h0
      simp [mapSet, mapFind, Ne.symm h]
    · simp only [mapSet, if_neg h0]
      by_cases h1 : k₀ = k'
      · simp [mapFind, h1]
      · simp [mapFind, h1, ih]

/-! ### A serialization codec

`JSON.stringify` / `JSON.parse` of the string-to-string password map is treated
abstractly in the theorems (any serializer with a left-inverse parser); this
concrete length-prefixed codec provides an executable instance for witnesses.
A string is encoded as a unary length prefix (`1`^n `0`) followed by its
characters; a map is the concatenation of the encodings of keys and values.
-/

/-- Unary-length-prefixed encoding of a character list. -/
def encChars (s : List Char) : List Char :=
  List.replicate s.length '1' ++ '0' :: s

/-- Decoder for `encChars`: counts the `1` markers, then splits off that many
characters after the `0` separator; returns the payload and the rest. -/
def decCharsAux : Nat → List Char → Option (List Char × List Char)
  | _, [] => none
  | n, c :: rest =>
    if c = '1' then decCharsAux (n + 1) rest
    else if c = '0' then
      if n ≤ rest.length then some (rest.take n, rest.drop n) else none
    else none

theorem decCharsAux_replicate (m n : Nat) (s : List Char) :
    decCharsAux n (List.replicate m '1' ++ '0' :: s) = decCharsAux (n + m) ('0' :: s) := by
  induction m generalizing n with
  | zero => simp
  | succ m ih =>
    rw [List.replicate_succ, List.cons_append]
    rw [show decCharsAux n ('1' :: (List.replicate m '1' ++ '0' :: s)) =
        decCharsAux (n + 1) (List.replicate m '1' ++ '0' :: s) from by
      simp [decCharsAux]]
    rw [ih]
    congr 1
    omega

theorem decCharsAux_enc (s rest : List Char) :
    decCharsAux 0 (encChars s ++ rest) = some (s, rest) := by
  unfold encChars
  rw [List.append_assoc, List.cons_append, decCharsAux_replicate, Nat.zero_add]
  rw [show decCharsAux s.length ('0' :: (s ++ rest)) =
      if s.length ≤ (s ++ rest).length then
        some ((s ++ rest).take s.length, (s ++ rest).drop s.length)
      else none from by simp [decCharsAux]]
  rw [if_pos (by simp)]
  simp

/-- Encoding of one key/value pair. -/
def encPair (p : String × String) : List Char :=
  encChars p.1.data ++ encChars p.2.data

/-- Encoding of a whole map. -/
def encMap : List (String × String) → List Char
  | [] => []
  | p :: rest => encPair p ++ encMap rest

/-- Fuel-indexed decoder for `encMap`. -/
def decMapAux : Nat → List Char → Option (List (String × String))
  | _, [] => some []
  | 0, _ :: _ => none
  | fuel + 1, c :: cs =>
    (decCharsAux 0 (c :: cs)).bind fun kr =>
      (decCharsAux 0 kr.2).bind fun vr =>
        (decMapAux fuel vr.2).map fun tl => (String.mk kr.1, String.mk vr.1) :: tl

/-- Serialize a password map to a string (stands in for `JSON.stringify`). -/
def serMap (m : List (String × String)) : String := String.mk (encMap m)

/-- Parse a serialized password map (stands in for `JSON.parse`). -/
def deserMap (s : String) : Option (List (String × String)) :=
  decMapAux s.data.length s.data

theorem decMapAux_enc (m : List (String × String)) :
    ∀ fuel, m.length ≤ fuel → decMapAux fuel (encMap m) = some m := by
  induction m with
  | nil => intro fuel _; cases fuel <;> rfl
  | cons p rest ih =>
    intro fuel hf
    obtain ⟨fuel, rfl⟩ : ∃ f, fuel = f + 1 := by
      cases fuel with
      | zero => simp at hf
      | succ f => exact ⟨f, rfl⟩
    obtain ⟨k, v⟩ := p
    have hcons : encPair (k, v) ++ encMap rest =
        encChars k.data ++ (encChars v.data ++ encMap rest) := by
      simp [encPair]
    show decMapAux (fuel + 1) (encPair (k, v) ++ encMap rest) = _
    obtain ⟨c, cs, hcc⟩ : ∃ c cs, encPair (k, v) ++ encMap rest = c :: cs := by
      cases hx : encPair (k, v) ++ encMap rest with
      | nil =>
        exfalso
        have := congrArg List.length hx
        simp [encPair, encChars] at this
      | cons c cs => exact ⟨c, cs, rfl⟩
    rw [hcc, decMapAux, ← hcc, hcons, decCharsAux_enc]
    simp only [Option.some_bind]
    rw [decCharsAux_enc]
    simp only [Option.some_bind]
    rw [ih fuel (by simpa using hf)]
    rfl

theorem deserMap_serMap (m : List (String × String)) : deserMap (serMap m) = some m := by
  apply decMapAux_enc
  show m.length ≤ (encMap m).length
  induction m with
  | nil => simp
  | cons p rest ih =>
    show (p :: rest).length ≤ (encPair p ++ encMap rest).length
    simp only [List.length_cons, List.length_append]
    have : 1 ≤ (encPair p).length := by
      simp [encPair, encChars]
      omega
    omega

/-! ### Cryptographic primitives

`node:crypto`'s SHA-256, scrypt and AES-256-GCM are not repository code; they
are abstracted as a bundle of primitive functions. `aead_correct` states the
decrypt-of-encrypt contract of AES-GCM under the same key and IV (`createCipheriv`
then `createDecipheriv` with the matching auth tag); `deser_ser` states the
`JSON.parse`-of-`JSON.stringify` contract for the password map. Theorems below
hold for every bundle satisfying these contracts; `testCrypto` is an executable
instance used by the witnesses.
-/

structure Crypto where
  /-- `createHash("sha256").update(secret).digest("hex")` -/
  hash : String → String
  /-- `scryptSync(secret, Buffer.from(saltHex, "hex"), 32)` as a hex key -/
  scrypt : String → String → String
  /-- AES-256-GCM encryption: key, iv, plaintext to (ciphertext, authTag). -/
  aeadEnc : String → String → String → String × String
  /-- AES-256-GCM decryption: key, iv, authTag, ciphertext to plaintext, or
  failure when the tag does not authenticate. -/
  aeadDec : String → String → String → String → Option String
  /-- `JSON.stringify` of the password map. -/
  ser : List (String × String) → String
  /-- `JSON.parse` of a serialized password map; `none` models a thrown
  `SyntaxError`. -/
  deser : String → Option (List (String × String))
  aead_correct : ∀ k iv t, aeadDec k iv (aeadEnc k iv t).2 (aeadEnc k iv t).1 = some t
  deser_ser : ∀ m, deser (ser m) = some m

/-- Executable test instance: the digest is the identity, the derived key tags
the secret with the salt, the "ciphertext" is the plaintext and the auth tag
records the key and IV, so decryption succeeds exactly when key and IV match. -/
def testCrypto : Crypto where
  hash s := s
  scrypt secret saltHex := secret ++ ":" ++ saltHex
  aeadEnc k iv t := (t, k ++ ";" ++ iv)
  aeadDec k iv tag ct := if tag = k ++ ";" ++ iv then some ct else none
  ser := serMap
  deser := deserMap
  aead_correct := by intro k iv t; simp
  deser_ser := deserMap_serMap

/-! ### Password encryption (`encrypt` / `decrypt`, dev-reload.js 166-204) -/

/-- The encrypted blob format `{secretHash, salt, iv, authTag, encrypted}`.
`salt` is an `Option` so that a blob whose JSON lacks the field (older format)
is representable; `encrypt` always writes it. -/
structure EncryptedData where
  secretHash : String
  salt : Option String
  iv : String
  authTag : String
  encrypted : String
  deriving DecidableEq, Repr

/-- The hard-coded fallback salt used by `decrypt` when the blob carries none. -/
def legacySaltHex : String := "64622d6261636b75702d73616c74"

/-- `encrypt(text, secret)`: the fresh random salt and IV produced by
`randomBytes(16).toString("hex")` are passed in explicitly (each is 32 hex
characters, in particular nonempty). -/
def encrypt (C : Crypto) (saltHex ivHex : String) (text secret : String) : EncryptedData :=
  let key := C.scrypt secret saltHex
  let (ct, tag) := C.aeadEnc key ivHex text
  { secretHash := C.hash secret
    salt := some saltHex
    iv := ivHex
    authTag := tag
    encrypted := ct }

/-- `decrypt(data, secret)`: verify the secret hash first; substitute the
legacy salt when the salt field is missing or empty; then derive the key and
run authenticated decryption (failure is `none`, modelling the caught throw). -/
def decrypt (C : Crypto) (data : EncryptedData) (secret : String) : Option String :=
  if data.secretHash ≠ C.hash secret then none
  else
    let saltHex :=
      match data.salt with
      | some s => if s.length > 0 then s else legacySaltHex
      | none => legacySaltHex
    let key := C.scrypt secret saltHex
    C.aeadDec key data.iv data.authTag data.encrypted

/-! ### Password store (dev-reload.js 208-297)

The persisted credential file is modelled by `VaultFile`: absent (`ENOENT`),
blank (whitespace-only contents), corrupt (contents that fail `JSON.parse`),
or a parsed `EncryptedData` blob. `readPasswords` returns the map together
with the new value of the module-global `decryptionFailed` flag (the `blank`
branch returns before any assignment, leaving the flag as it was).
-/

inductive VaultFile where
  | absent
  | blank
  | corrupt
  | data (d : EncryptedData)
  deriving DecidableEq

/-- `readPasswords()` as a function of the configured secret, the persisted
file and the previous `decryptionFailed` flag; result is (map, new flag). -/
def readPasswords (C : Crypto) (encryptionSecret : String) (file : VaultFile)
    (flag : Bool) : List (String × String) × Bool :=
  if encryptionSecret.isEmpty then ([], false)
  else
    match file with
    | .absent => ([], false)
    | .blank => ([], flag)
    | .corrupt => ([], true)
    | .data d =>
      match decrypt C d encryptionSecret with
      | none => ([], true)
      | some plain =>
        match C.deser plain with
        | none => ([], true)
        | some m => (m, false)

/-- `writePasswords(passwords)`: throws `ENCRYPTION_SECRET not configured`
when no secret is set, otherwise produces the blob written to the file.
The fresh salt and IV are explicit arguments. -/
def writePasswords (C : Crypto) (encryptionSecret saltHex ivHex : String)
    (passwords : List (String × String)) : Except String EncryptedData :=
  if encryptionSecret.isEmpty then Except.error "ENCRYPTION_SECRET not configured"
  else Except.ok (encrypt C saltHex ivHex (C.ser passwords) encryptionSecret)

/-- `setPassword(configName, password)`: read, set, write back; returns the
new persisted file on success. -/
def setPassword (C : Crypto) (encryptionSecret : String) (file : VaultFile)
    (flag : Bool) (saltHex ivHex configName password : String) :
    Except String VaultFile :=
  let passwords := (readPasswords C encryptionSecret file flag).1
  match writePasswords C encryptionSecret saltHex ivHex
      (mapSet passwords configName password) with
  | Except.error e => Except.error e
  | Except.ok d => Except.ok (VaultFile.data d)

/-- `getPassword(configName)`: re-reads the persisted file and returns
`passwords.get(configName) || null` — note the `|| null`, which maps an
empty-string password to `null`. -/
def getPassword (C : Crypto) (encryptionSecret : String) (file : VaultFile)
    (flag : Bool) (configName : String) : Option String :=
  match mapFind (readPasswords C encryptionSecret file flag).1 configName with
  | none => none
  | some p => if p.isEmpty then none else some p

/-- `listPasswordConfigs()`: the keys of the freshly read map. -/
def listPasswordConfigs (C : Crypto) (encryptionSecret : String) (file : VaultFile)
    (flag : Bool) : List String :=
  ((readPasswords C encryptionSecret file flag).1).map Prod.fst

theorem isEmpty_eq_false {s : String} (h : s ≠ "") : s.isEmpty = false := by
  cases hb : s.isEmpty with
  | false => rfl
  | true => exact absurd ((String.isEmpty_iff s).mp hb) h

theorem length_pos_of_ne {s : String} (h : s ≠ "") : 0 < s.length := by
  cases s with
  | mk data =>
    cases data with
    | nil => exact absurd rfl h
    | cons c cs => simp [String.length]

/-- Decrypting a blob freshly produced by `encrypt` with the same secret
recovers the plaintext, provided the salt is nonempty (as `randomBytes(16)`
hex always is). -/
theorem decrypt_encrypt (C : Crypto) (saltHex ivHex text secret : String)
    (hsalt : saltHex ≠ "") :
    decrypt C (encrypt C saltHex ivHex text secret) secret = some text := by
  unfold decrypt encrypt
  simp only [ne_eq, not_true_eq_false, if_neg, ite_not, if_pos rfl]
  rw [if_pos (length_pos_of_ne hsalt)]
  exact C.aead_correct _ _ _

/-- Reading back a file whose blob encrypts the serialized map `m` under the
same (configured) secret yields exactly `m` and clears the failure flag. -/
theorem readPasswords_encrypt (C : Crypto) (secret saltHex ivHex : String)
    (m : List (String × String)) (flag : Bool)
    (hsec : secret.isEmpty = false) (hsalt : saltHex ≠ "") :
    readPasswords C secret
      (VaultFile.data (encrypt C saltHex ivHex (C.ser m) secret)) flag = (m, false) := by
  unfold readPasswords
  rw [hsec]
  simp only [Bool.false_eq_true, if_false]
  rw [decrypt_encrypt C saltHex ivHex _ secret hsalt]
  simp [C.deser_ser]

/-- C1 (amended): for every config name and every NONEMPTY password, with an
encryption secret configured, `setPassword(name, password)` followed by
`getPassword(name)` re-reading the persisted encrypted file with the same
secret (a simulated restart: `getPassword` always re-reads the file) returns
that same password — decrypt of encrypt of the stored map recovers the map.
The nonemptiness of the password is forced by `getPassword`'s
`passwords.get(name) || null`, which maps a stored empty string to `null`. -/
theorem set_then_get_roundtrip (C : Crypto) (secret : String) (file : VaultFile)
    (flag flag' : Bool) (saltHex ivHex name pw : String) (file' : VaultFile)
    (hsalt : saltHex ≠ "") (hpw : pw ≠ "")
    (hset : setPassword C secret file flag saltHex ivHex name pw = Except.ok file') :
    getPassword C secret file' flag' name = some pw := by
  have hsec : secret.isEmpty = false := by
    by_contra h
    have ht : secret.isEmpty = true := by
      cases hb : secret.isEmpty with
      | false => exact absurd hb h
      | true => rfl
    unfold setPassword writePasswords at hset
    rw [ht] at hset
    simp at hset
  unfold setPassword writePasswords at hset
  rw [hsec] at hset
  simp only [Bool.false_eq_true, if_false] at hset
  have hfile' : VaultFile.data (encrypt C saltHex ivHex
      (C.ser (mapSet (readPasswords C secret file flag).1 name pw)) secret) = file' := by
    exact Except.ok.inj hset
  rw [← hfile']
  unfold getPassword
  rw [readPasswords_encrypt C secret saltHex ivHex _ flag' hsec hsalt]
  simp only [mapFind_mapSet_self]
  rw [isEmpty_eq_false hpw]
  simp

/-- C1 witness: a concrete set-then-get run through the executable test
crypto instance. -/
theorem set_then_get_roundtrip_witness :
    getPassword testCrypto "s"
      (VaultFile.data ⟨"s", some "aa", "bb", "s:aa;bb", "110db10p"⟩) false "db" =
      some "p" :=
  set_then_get_roundtrip testCrypto "s" VaultFile.absent false false
    "aa" "bb" "db" "p"
    (VaultFile.data ⟨"s", some "aa", "bb", "s:aa;bb", "110db10p"⟩)
    (by decide) (by decide) rfl

/-- C1 counterexample: with the empty-string password, `setPassword` succeeds
and stores it, but `getPassword` returns `none` (JS `null`), not the stored
password — `passwords.get(name) || null` collapses `""` to `null`. -/
theorem set_then_get_empty_password_fails :
    setPassword testCrypto "s" VaultFile.absent false "aa" "bb" "db" "" =
      Except.ok (VaultFile.data ⟨"s", some "aa", "bb", "s:aa;bb", "110db0"⟩) ∧
    getPassword testCrypto "s"
      (VaultFile.data ⟨"s", some "aa", "bb", "s:aa;bb", "110db0"⟩) false "db" =
      none ∧ (none : Option String) ≠ some "" := by
  refine ⟨rfl, rfl, by decide⟩

/-- C2: if the digest of the supplied secret differs from the blob's
`secretHash`, `decrypt` returns `null`, and does so independently of the key
derivation function, the AEAD primitive and the salt/iv/authTag/ciphertext
fields (the short-circuit happens before key derivation or any use of the
ciphertext); `readPasswords` then sets the decryption-failing flag and returns
an empty map. Moreover, for a blob produced by `encrypt` under `secret0` and
a collision-free digest, reading with any secret yields either exactly the
stored map (same secret, flag cleared) or the explicit failure signal
(empty map, flag set) — never a wrong password silently. -/
theorem decrypt_wrong_secret_shortcircuit (C : Crypto) (secret secret0 : String)
    (d : EncryptedData) (flag : Bool) :
    (d.secretHash ≠ C.hash secret →
      decrypt C d secret = none ∧
      (∀ C₂ : Crypto, ∀ d₂ : EncryptedData, C₂.hash = C.hash →
        d₂.secretHash = d.secretHash → decrypt C₂ d₂ secret = none) ∧
      (secret.isEmpty = false →
        readPasswords C secret (VaultFile.data d) flag = ([], true))) ∧
    (∀ saltHex ivHex m, saltHex ≠ "" → secret.isEmpty = false →
      (∀ a b, C.hash a = C.hash b → a = b) →
      (secret = secret0 ∧
        readPasswords C secret
          (VaultFile.data (encrypt C saltHex ivHex (C.ser m) secret0)) flag = (m, false)) ∨
      readPasswords C secret
        (VaultFile.data (encrypt C saltHex ivHex (C.ser m) secret0)) flag = ([], true)) := by
  constructor
  · intro hmis
    have hdec : decrypt C d secret = none := by
      unfold decrypt
      rw [if_pos hmis]
    refine ⟨hdec, ?_, ?_⟩
    · intro C₂ d₂ hh hsh
      unfold decrypt
      rw [if_pos (by rw [hsh, hh]; exact hmis)]
    · intro hsec
      unfold readPasswords
      rw [hsec]
      simp only [Bool.false_eq_true, if_false]
      rw [hdec]
  · intro saltHex ivHex m hsalt hsec hinj
    by_cases heq : secret = secret0
    · subst heq
      exact Or.inl ⟨rfl, readPasswords_encrypt C secret saltHex ivHex m flag hsec hsalt⟩
    · refine Or.inr ?_
      have hmis : (encrypt C saltHex ivHex (C.ser m) secret0).secretHash ≠
          C.hash secret := by
        show C.hash secret0 ≠ C.hash secret
        intro hh
        exact heq (hinj secret0 secret hh).symm
      unfold readPasswords
      rw [hsec]
      simp only [Bool.false_eq_true, if_false]
      rw [show decrypt C (encrypt C saltHex ivHex (C.ser m) secret0) secret = none from by
        unfold decrypt
        rw [if_pos hmis]]

/-- C2 witness: concrete runs through the test instance — a mismatched digest
makes `decrypt` return `none` and `readPasswords` flag the failure, and
reading a blob written under secret "a" with secret "b" fails explicitly. -/
theorem decrypt_wrong_secret_shortcircuit_witness :
    decrypt testCrypto ⟨"x", some "aa", "bb", "t", "c"⟩ "y" = none ∧
    readPasswords testCrypto "y"
      (VaultFile.data ⟨"x", some "aa", "bb", "t", "c"⟩) false = ([], true) ∧
    ((("a" : String) = "b" ∧
      readPasswords testCrypto "a"
        (VaultFile.data (encrypt testCrypto "aa" "bb" (testCrypto.ser [("db", "p")]) "b"))
        false = ([("db", "p")], false)) ∨
      readPasswords testCrypto "a"
        (VaultFile.data (encrypt testCrypto "aa" "bb" (testCrypto.ser [("db", "p")]) "b"))
        false = ([], true)) := by
  have h1 := (decrypt_wrong_secret_shortcircuit testCrypto "y" "y"
    ⟨"x", some "aa", "bb", "t", "c"⟩ false).1 (by decide)
  have h2 := (decrypt_wrong_secret_shortcircuit testCrypto "a" "b"
    ⟨"x", some "aa", "bb", "t", "c"⟩ false).2 "aa" "bb" [("db", "p")]
    (by decide) (by decide) (fun a b hab => hab)
  exact ⟨h1.1, h1.2.2 (by decide), h2⟩

/-- C9: with no encryption secret configured, every read of the vault
returns the empty/absent result for every possible state of the encrypted
file, leaving the decryption-failing flag cleared, and every write fails
with the `ENCRYPTION_SECRET not configured` error, so nothing (in
particular no plaintext) is ever stored. -/
theorem vault_disabled_without_secret (C : Crypto) (secret : String) (h : secret = "") :
    (∀ file flag, readPasswords C secret file flag = ([], false)) ∧
    (∀ file flag name, getPassword C secret file flag name = none) ∧
    (∀ file flag, listPasswordConfigs C secret file flag = []) ∧
    (∀ saltHex ivHex pwds, writePasswords C secret saltHex ivHex pwds =
      Except.error "ENCRYPTION_SECRET not configured") ∧
    (∀ file flag saltHex ivHex name pw,
      setPassword C secret file flag saltHex ivHex name pw =
        Except.error "ENCRYPTION_SECRET not configured") := by
  subst h
  have hread : ∀ file flag, readPasswords C "" file flag = ([], false) := by
    intro file flag
    unfold readPasswords
    rfl
  refine ⟨hread, ?_, ?_, ?_, ?_⟩
  · intro file flag name
    unfold getPassword
    rw [hread]
    rfl
  · intro file flag
    unfold listPasswordConfigs
    rw [hread]
    rfl
  · intro saltHex ivHex pwds
    unfold writePasswords
    rfl
  · intro file flag saltHex ivHex name pw
    unfold setPassword writePasswords
    rfl

/-- C9 witness: the disabled vault evaluated at concrete inputs. -/
theorem vault_disabled_without_secret_witness :
    readPasswords testCrypto "" (VaultFile.data ⟨"x", some "aa", "bb", "t", "c"⟩) true
      = ([], false) ∧
    getPassword testCrypto "" (VaultFile.data ⟨"x", some "aa", "bb", "t", "c"⟩) true "db"
      = none ∧
    writePasswords testCrypto "" "aa" "bb" [("db", "p")] =
      Except.error "ENCRYPTION_SECRET not configured" := by
  have h := vault_disabled_without_secret testCrypto "" rfl
  exact ⟨h.1 _ _, h.2.1 _ _ _, h.2.2.2.1 _ _ _⟩

/-- C10: when the blob's `secretHash` matches the supplied secret's digest but
the salt field is missing or empty, `decrypt` does not fail on that account:
it derives the key from the hard-coded legacy salt
`64622d6261636b75702d73616c74` and returns exactly the result of AEAD
decryption under that key. -/
theorem decrypt_missing_salt_uses_legacy (C : Crypto) (d : EncryptedData) (secret : String)
    (hmatch : d.secretHash = C.hash secret)
    (hsalt : d.salt = none ∨ d.salt = some "") :
    decrypt C d secret =
      C.aeadDec (C.scrypt secret legacySaltHex) d.iv d.authTag d.encrypted := by
  unfold decrypt
  rw [if_neg (by simp [hmatch])]
  rcases hsalt with h | h
  · rw [h]
  · rw [h]
    rfl

/-- C10 witness: a blob with an empty salt and one with a missing salt both
decrypt via the legacy salt in the test instance, successfully. -/
theorem decrypt_missing_salt_uses_legacy_witness :
    decrypt testCrypto
      ⟨"y", some "", "iv0", "y:64622d6261636b75702d73616c74;iv0", "pt"⟩ "y" =
      testCrypto.aeadDec (testCrypto.scrypt "y" legacySaltHex) "iv0"
        "y:64622d6261636b75702d73616c74;iv0" "pt" ∧
    decrypt testCrypto
      ⟨"y", none, "iv0", "y:64622d6261636b75702d73616c74;iv0", "pt"⟩ "y" =
      testCrypto.aeadDec (testCrypto.scrypt "y" legacySaltHex) "iv0"
        "y:64622d6261636b75702d73616c74;iv0" "pt" ∧
    testCrypto.aeadDec (testCrypto.scrypt "y" legacySaltHex) "iv0"
      "y:64622d6261636b75702d73616c74;iv0" "pt" = some "pt" := by
  refine ⟨?_, ?_, by decide⟩
  · exact decrypt_missing_salt_uses_legacy testCrypto
      ⟨"y", some "", "iv0", "y:64622d6261636b75702d73616c74;iv0", "pt"⟩ "y" rfl
      (Or.inr rfl)
  · exact decrypt_missing_salt_uses_legacy testCrypto
      ⟨"y", none, "iv0", "y:64622d6261636b75702d73616c74;iv0", "pt"⟩ "y" rfl
      (Or.inl rfl)

/-! ### JavaScript string operations

Executable models of the JS string methods the cron validator uses:
`String.prototype.split` with a single-character separator, `split(/\s+/)`
after `trim()`, `trim()`, `toLowerCase()` and `parseInt(-, 10)`.
-/

/-- `str.split(sep)` for a one-character separator. -/
def splitOnChar (sep : Char) : List Char → List (List Char)
  | [] => [[]]
  | c :: rest =>
    let r := splitOnChar sep rest
    if c = sep then [] :: r
    else
      match r with
      | [] => [[c]]
      | hd :: tl => (c :: hd) :: tl

/-- `str.split(sep)` returning strings. -/
def jsSplit (s : String) (sep : Char) : List String :=
  (splitOnChar sep s.data).map String.mk

/-- `str.trim()`. -/
def jsTrim (s : String) : String :=
  String.mk (((s.data.dropWhile Char.isWhitespace).reverse.dropWhile
    Char.isWhitespace).reverse)

/-- `str.trim().split(/\s+/)` of a string: maximal nonempty runs of
non-whitespace characters. -/
def jsSplitWs (s : String) : List String :=
  ((splitOnChar ' ' ((jsTrim s).data.map fun c => if c.isWhitespace then ' ' else c)).filter
    (fun g => ¬g.isEmpty)).map String.mk

/-- `str.toLowerCase()` (ASCII, which is all the validator compares). -/
def jsToLower (s : String) : String :=
  String.mk (s.data.map Char.toLower)

/-- `parseInt(val, 10)`: skip leading whitespace, take an optional sign and a
maximal run of leading decimal digits; `none` models `NaN`. -/
def jsParseInt (s : String) : Option Int :=
  let cs := s.data.dropWhile Char.isWhitespace
  let signed : Bool × List Char :=
    match cs with
    | '-' :: rest => (true, rest)
    | '+' :: rest => (false, rest)
    | _ => (false, cs)
  let digits := signed.2.takeWhile Char.isDigit
  if digits.isEmpty then none
  else
    let n : Nat := digits.foldl (fun acc c => acc * 10 + (c.toNat - 48)) 0
    some (if signed.1 then -(n : Int) else (n : Int))

/-! ### Cron validation (dev-reload.js 416-506) -/

structure CronRange where
  name : String
  min : Int
  max : Int

/-- `CRON_RANGES`. -/
def CRON_RANGES : List CronRange :=
  [⟨"minute", 0, 59⟩, ⟨"hour", 0, 23⟩, ⟨"day of month", 1, 31⟩,
   ⟨"month", 1, 12⟩, ⟨"day of week", 0, 7⟩]

/-- `MONTH_NAMES`. -/
def MONTH_NAMES : List (String × Int) :=
  [("jan", 1), ("feb", 2), ("mar", 3), ("apr", 4), ("may", 5), ("jun", 6),
   ("jul", 7), ("aug", 8), ("sep", 9), ("oct", 10), ("nov", 11), ("dec", 12)]

/-- `DOW_NAMES_MAP`. -/
def DOW_NAMES_MAP : List (String × Int) :=
  [("sun", 0), ("mon", 1), ("tue", 2), ("wed", 3), ("thu", 4), ("fri", 5), ("sat", 6)]

/-- `resolveAlias(val, fieldIndex)`. -/
def resolveAlias (val : String) (fieldIndex : Nat) : Option Int :=
  let lower := jsToLower val
  if fieldIndex = 3 then
    match mapFind MONTH_NAMES lower with
    | some n => some n
    | none => jsParseInt val
  else if fieldIndex = 4 then
    match mapFind DOW_NAMES_MAP lower with
    | some n => some n
    | none => jsParseInt val
  else jsParseInt val

/-- Alias hint appended to the "not valid" message for months and weekdays. -/
def aliasHint (i : Nat) : String :=
  if i = 3 then " (use 1-12 or JAN-DEC)"
  else if i = 4 then " (use 0-7 or SUN-SAT)"
  else ""

/-- The `for (const val of rangeParts)` loop: resolve every endpoint and check
the per-field bounds, returning the first violation's message. -/
def resolveVals (i : Nat) (r : CronRange) : List String → Except String (List Int)
  | [] => Except.ok []
  | val :: rest =>
    match resolveAlias val i with
    | none =>
      Except.error ("\"" ++ val ++ "\" is not valid in " ++ r.name ++ aliasHint i)
    | some n =>
      if n < r.min ∨ n > r.max then
        Except.error (toString n ++ " is out of range " ++ toString r.min ++ "-" ++
          toString r.max ++ " for " ++ r.name)
      else
        match resolveVals i r rest with
        | Except.error e => Except.error e
        | Except.ok l => Except.ok (n :: l)

/-- The step validation of one atom (`stepParts.length === 2` branch):
`parseInt` of the step, rejecting `NaN`, steps below 1 and steps exceeding
the field's span `range.max - range.min + 1`. -/
def stepCheck (r : CronRange) (stepParts : List String) : Option String :=
  if stepParts.length = 2 then
    match jsParseInt (stepParts.getD 1 "") with
    | none => some ("Invalid step value \"" ++ stepParts.getD 1 "" ++ "\" in " ++ r.name)
    | some step =>
      if step < 1 then
        some ("Invalid step value \"" ++ stepParts.getD 1 "" ++ "\" in " ++ r.name)
      else if step > r.max - r.min + 1 then
        some ("Step " ++ toString step ++ " exceeds range of " ++ r.name ++
          " (max " ++ toString (r.max - r.min + 1) ++ ")")
      else none
  else none

/-- Final check of one atom: a two-endpoint range must be ordered. -/
def rangeOrderCheck (r : CronRange) (resolved : List Int) : Option String :=
  if resolved.length = 2 ∧ resolved.getD 0 0 > resolved.getD 1 0 then
    some ("Invalid range " ++ toString (resolved.getD 0 0) ++ "-" ++
      toString (resolved.getD 1 0) ++ " in " ++ r.name ++ " (start must be <= end)")
  else none

/-- The body of the `for (const part of parts)` loop of `validateCron`:
`none` means the atom is accepted, `some msg` is the returned error (the JS
`const stepParts`/`base`/`rangeParts` bindings are inlined). -/
def validatePart (i : Nat) (r : CronRange) (part : String) : Option String :=
  if part = "" then some ("Empty value in list for " ++ r.name)
  else if (jsSplit part '/').length > 2 then
    some ("Invalid step in " ++ r.name ++ ": \"" ++ part ++ "\"")
  else
    match stepCheck r (jsSplit part '/') with
    | some e => some e
    | none =>
      if (jsSplit part '/').getD 0 "" = "*" then none
      else if (jsSplit ((jsSplit part '/').getD 0 "") '-').length > 2 then
        some ("Invalid range in " ++ r.name ++ ": \"" ++
          (jsSplit part '/').getD 0 "" ++ "\"")
      else
        match resolveVals i r (jsSplit ((jsSplit part '/').getD 0 "") '-') with
        | Except.error e => some e
        | Except.ok resolved => rangeOrderCheck r resolved

/-- First error among a list of checks (the sequential early returns). -/
def firstErr : List (Option String) → Option String
  | [] => none
  | some e :: _ => some e
  | none :: rest => firstErr rest

/-- One field of the cron expression: every comma-separated atom must pass. -/
def validateField (i : Nat) (r : CronRange) (field : String) : Option String :=
  firstErr ((jsSplit field ',').map (validatePart i r))

/-- The five whitespace-separated fields of a cron expression. -/
def cronFields (expr : String) : List String := jsSplitWs expr

/-- `validateCron(expr)`: `none` accepts, `some msg` rejects with the first
violation left-to-right by field, then by atom. -/
def validateCron (expr : String) : Option String :=
  if jsTrim expr = "" then some "Cron expression is required"
  else if (cronFields expr).length ≠ 5 then
    some ("Expected 5 fields, got " ++ toString (cronFields expr).length)
  else
    firstErr ((List.range 5).map fun i =>
      validateField i (CRON_RANGES.getD i ⟨"", 0, 0⟩) ((cronFields expr).getD i ""))

theorem firstErr_eq_none {l : List (Option String)} (h : firstErr l = none) :
    ∀ x ∈ l, x = none := by
  induction l with
  | nil => simp
  | cons hd tl ih =>
    cases hd with
    | some e => exact absurd h (by simp [firstErr])
    | none =>
      intro x hx
      rcases List.mem_cons.mp hx with hx | hx
      · exact hx
      · exact ih h x hx

theorem resolveVals_bounds {i : Nat} {r : CronRange} {vals : List String} {l : List Int}
    (h : resolveVals i r vals = Except.ok l) :
    ∀ val ∈ vals, ∀ n, resolveAlias val i = some n → r.min ≤ n ∧ n ≤ r.max := by
  induction vals generalizing l with
  | nil => simp
  | cons v rest ih =>
    intro val hval n hn
    unfold resolveVals at h
    cases hv : resolveAlias v i with
    | none =>
      rw [hv] at h
      exact Except.noConfusion h
    | some m =>
      rw [hv] at h
      simp only [] at h
      by_cases hb : m < r.min ∨ m > r.max
      · rw [if_pos hb] at h
        exact Except.noConfusion h
      · rw [if_neg hb] at h
        push_neg at hb
        rcases List.mem_cons.mp hval with hveq | hvmem
        · subst hveq
          rw [hv] at hn
          cases hn
          exact ⟨hb.1, hb.2⟩
        · cases hrest : resolveVals i r rest with
          | error e =>
            rw [hrest] at h
            exact Except.noConfusion h
          | ok l2 => exact ih hrest val hvmem n hn

theorem validatePart_none_resolveVals {i : Nat} {r : CronRange} {part : String}
    (h : validatePart i r part = none)
    (hbase : (jsSplit part '/').getD 0 "" ≠ "*") :
    ∃ l, resolveVals i r (jsSplit ((jsSplit part '/').getD 0 "") '-') = Except.ok l := by
  unfold validatePart at h
  by_cases h0 : part = ""
  · rw [if_pos h0] at h
    exact Option.noConfusion h
  rw [if_neg h0] at h
  by_cases h1 : (jsSplit part '/').length > 2
  · rw [if_pos h1] at h
    exact Option.noConfusion h
  rw [if_neg h1] at h
  cases hsc : stepCheck r (jsSplit part '/') with
  | some e =>
    rw [hsc] at h
    exact Option.noConfusion h
  | none =>
    rw [hsc] at h
    rw [if_neg hbase] at h
    by_cases h2 : (jsSplit ((jsSplit part '/').getD 0 "") '-').length > 2
    · rw [if_pos h2] at h
      exact Option.noConfusion h
    rw [if_neg h2] at h
    cases hrv : resolveVals i r (jsSplit ((jsSplit part '/').getD 0 "") '-') with
    | error e =>
      rw [hrv] at h
      exact Option.noConfusion h
    | ok l => exact ⟨l, rfl⟩

theorem validateCron_none_field {expr : String} (h : validateCron expr = none)
    {i : Nat} (hi : i < 5) :
    validateField i (CRON_RANGES.getD i ⟨"", 0, 0⟩) ((cronFields expr).getD i "") = none := by
  unfold validateCron at h
  by_cases h0 : jsTrim expr = ""
  · rw [if_pos h0] at h
    exact Option.noConfusion h
  rw [if_neg h0] at h
  by_cases h1 : (cronFields expr).length ≠ 5
  · rw [if_pos h1] at h
    exact Option.noConfusion h
  rw [if_neg h1] at h
  exact firstErr_eq_none h _ (List.mem_map_of_mem _ (List.mem_range.mpr hi))

/-- C6: `validateCron` accepts `* * * * *`; rejects `60 * * * *` with a
message naming the minute field; rejects `*/0 * * * *` because a step must be
at least 1; rejects `0 0 1 1 8-9` because day-of-week integers must lie in
0-7; and in general, every integer resolved from an atom of an accepted
expression satisfies the per-field bounds of `CRON_RANGES` (minute 0-59,
hour 0-23, day of month 1-31, month 1-12, day of week 0-7). -/
theorem validateCron_spec :
    validateCron "* * * * *" = none ∧
    validateCron "60 * * * *" = some "60 is out of range 0-59 for minute" ∧
    validateCron "*/0 * * * *" = some "Invalid step value \"0\" in minute" ∧
    validateCron "0 0 1 1 8-9" = some "8 is out of range 0-7 for day of week" ∧
    (∀ expr, validateCron expr = none → ∀ i, i < 5 →
      ∀ part ∈ jsSplit ((cronFields expr).getD i "") ',',
        (jsSplit part '/').getD 0 "" ≠ "*" →
        ∀ val ∈ jsSplit ((jsSplit part '/').getD 0 "") '-', ∀ n,
          resolveAlias val i = some n →
          (CRON_RANGES.getD i ⟨"", 0, 0⟩).min ≤ n ∧
            n ≤ (CRON_RANGES.getD i ⟨"", 0, 0⟩).max) := by
  refine ⟨by decide, by decide, by decide, by decide, ?_⟩
  intro expr h i hi part hpart hbase val hval n hn
  have hfield := validateCron_none_field h hi
  have hpartnone : validatePart i (CRON_RANGES.getD i ⟨"", 0, 0⟩) part = none :=
    firstErr_eq_none hfield _ (List.mem_map_of_mem _ hpart)
  obtain ⟨l, hl⟩ := validatePart_none_resolveVals hpartnone hbase
  exact resolveVals_bounds hl val hval n hn

/-- C6 witness: the general bounds statement applied to the accepted
expression `0 */6 * * 1-5` at the day-of-week endpoint `5`. -/
theorem validateCron_spec_witness :
    (CRON_RANGES.getD 4 ⟨"", 0, 0⟩).min ≤ 5 ∧
      (5 : Int) ≤ (CRON_RANGES.getD 4 ⟨"", 0, 0⟩).max :=
  validateCron_spec.2.2.2.2 "0 */6 * * 1-5" (by decide) 4 (by decide)
    "1-5" (by decide) (by decide) "5" (by decide) 5 (by decide)

/-! ### Backup identity registry (dev-reload.js 586-689)

`BackupIdStore` is the persisted `{nextId, byFilename}` map. Only the
`filename` field of a backup artifact participates in ID assignment, so
artifact lists are lists of filenames here. `RawIdStore` models the arbitrary
JSON read from disk: values are `Option Int`, where `none` stands for a value
that `Number(-)` does not coerce to an integer (`Number.isInteger` fails).
-/

structure BackupIdStore where
  nextId : Int
  byFilename : List (String × Int)
  deriving DecidableEq, Repr

structure RawIdStore where
  nextId : Option Int
  byFilename : List (String × Option Int)

/-- One entry of the `for ... of Object.entries(raw.byFilename)` loop of
`sanitizeBackupIdStore`: skip non-integers and ids below 1, otherwise record
the binding and track the running maximum. -/
def sanitizeStep (acc : List (String × Int) × Int) (entry : String × Option Int) :
    List (String × Int) × Int :=
  match entry.2 with
  | none => acc
  | some id =>
    if id < 1 then acc
    else (mapSet acc.1 entry.1 id, max acc.2 id)

/-- The `nextId` computed by `sanitizeBackupIdStore`: the stored value when it
is a positive integer, else `maxId + 1`; then `Math.max(nextId, maxId + 1)`. -/
def sanitizedNextId (rawNext : Option Int) (maxId : Int) : Int :=
  max (match rawNext with
       | some n => if n > 0 then n else maxId + 1
       | none => maxId + 1)
    (maxId + 1)

/-- `sanitizeBackupIdStore(raw)`. -/
def sanitizeBackupIdStore (raw : RawIdStore) : BackupIdStore :=
  BackupIdStore.mk
    (sanitizedNextId raw.nextId (raw.byFilename.foldl sanitizeStep ([], 0)).2)
    (raw.byFilename.foldl sanitizeStep ([], 0)).1

/-- The `while (usedIds.has(idStore.nextId)) idStore.nextId += 1` loop:
first candidate at or above `n` not in `used`. Phrased with fuel and erasure
(`used` is a JS `Set`, so `used.length` bounds the iterations). -/
def nextFreeAux : Nat → List Int → Int → Int
  | 0, _, n => n
  | fuel + 1, used, n =>
    if n ∈ used then nextFreeAux fuel (used.erase n) (n + 1) else n

def nextFree (used : List Int) (n : Int) : Int := nextFreeAux used.length used n

/-- One iteration of the assignment loop of `assignBackupIds`: returns the
id given to `f`, the updated store, and whether this step changed the store.
An absent binding is JS `Number(undefined) = NaN`, which fails
`Number.isInteger` and lands in the reassignment branch. -/
def assignStep (st : BackupIdStore) (used : List Int) (f : String) :
    Int × BackupIdStore × Bool :=
  match mapFind st.byFilename f with
  | some id =>
    if 0 < id ∧ id ∉ used then
      if st.nextId ≤ id then (id, { st with nextId := id + 1 }, true)
      else (id, st, false)
    else
      (nextFree used st.nextId,
        { nextId := nextFree used st.nextId + 1,
          byFilename := mapSet st.byFilename f (nextFree used st.nextId) }, true)
  | none =>
    (nextFree used st.nextId,
      { nextId := nextFree used st.nextId + 1,
        byFilename := mapSet st.byFilename f (nextFree used st.nextId) }, true)

/-- The `for (const backup of sortedForAssignment)` loop: threads the store,
the `usedIds` set and the `idStoreChanged` flag, collecting `(filename, id)`. -/
def assignLoop : BackupIdStore → List Int → Bool → List String →
    List (String × Int) × BackupIdStore × Bool
  | st, _, changed, [] => ([], st, changed)
  | st, used, changed, f :: rest =>
    let s := assignStep st used f
    let r := assignLoop s.2.1 (s.1 :: used) (changed || s.2.2) rest
    ((f, s.1) :: r.1, r.2.1, r.2.2)

/-- Insertion of one filename into a sorted list (models the deterministic
comparator sort `[...backups].sort((a, b) => a.filename.localeCompare(b))`). -/
def insertSorted (x : String) : List String → List String
  | [] => [x]
  | y :: rest => if x < y then x :: y :: rest else y :: insertSorted x rest

def sortFilenames : List String → List String
  | [] => []
  | x :: rest => insertSorted x (sortFilenames rest)

/-- `assignBackupIds(backups)`: sort by filename, run the loop on the store
read from disk, and report `(annotated backups, final store, idStoreChanged)`;
the store is persisted again only when the flag is true. -/
def assignBackupIds (st : BackupIdStore) (backups : List String) :
    List (String × Int) × BackupIdStore × Bool :=
  assignLoop st [] false (sortFilenames backups)

/-- Well-formedness of an in-memory store: `nextId` is positive, every id is
in `[1, nextId)`, filenames are unique and ids are unique. -/
def WF (st : BackupIdStore) : Prop :=
  1 ≤ st.nextId ∧
  (∀ p ∈ st.byFilename, 1 ≤ p.2 ∧ p.2 < st.nextId) ∧
  (st.byFilename.map Prod.fst).Nodup ∧
  (st.byFilename.map Prod.snd).Nodup

theorem mapFind_mem {β : Type} {m : List (String × β)} {k : String} {v : β}
    (h : mapFind m k = some v) : (k, v) ∈ m := by
  induction m with
  | nil => exact Option.noConfusion h
  | cons p rest ih =>
    obtain ⟨k', v'⟩ := p
    by_cases hk : k' = k
    · subst hk
      rw [mapFind, if_pos rfl] at h
      cases h
      exact List.mem_cons_self _ _
    · rw [mapFind, if_neg hk] at h
      exact List.mem_cons_of_mem _ (ih h)

theorem mapFind_eq_none {β : Type} {m : List (String × β)} {k : String}
    (h : k ∉ m.map Prod.fst) : mapFind m k = none := by
  induction m with
  | nil => rfl
  | cons p rest ih =>
    obtain ⟨k', v'⟩ := p
    simp only [List.map_cons, List.mem_cons] at h
    push_neg at h
    rw [mapFind, if_neg (fun hh => h.1 hh.symm)]
    exact ih h.2

theorem not_mem_keys_of_mapFind_none {β : Type} {m : List (String × β)} {k : String}
    (h : mapFind m k = none) : k ∉ m.map Prod.fst := by
  induction m with
  | nil => simp
  | cons p rest ih =>
    obtain ⟨k', v'⟩ := p
    by_cases hk : k' = k
    · rw [mapFind, if_pos hk] at h
      exact Option.noConfusion h
    · rw [mapFind, if_neg hk] at h
      simp only [List.map_cons, List.mem_cons]
      push_neg
      exact ⟨fun hh => hk hh.symm, ih h⟩

theorem mapSet_of_find_none {β : Type} {m : List (String × β)} {k : String}
    (h : mapFind m k = none) (v : β) : mapSet m k v = m ++ [(k, v)] := by
  induction m with
  | nil => rfl
  | cons p rest ih =>
    obtain ⟨k', v'⟩ := p
    by_cases hk : k' = k
    · rw [mapFind, if_pos hk] at h
      exact Option.noConfusion h
    · rw [mapFind, if_neg hk] at h
      rw [mapSet, if_neg hk, ih h]
      rfl

theorem snd_ne_of_nodup {l : List (String × Int)} (h : (l.map Prod.snd).Nodup)
    {p q : String × Int} (hp : p ∈ l) (hq : q ∈ l) (hne : p.1 ≠ q.1) :
    p.2 ≠ q.2 := by
  induction l with
  | nil => exact absurd hp (List.not_mem_nil p)
  | cons r t ih =>
    simp only [List.map_cons, List.nodup_cons] at h
    rcases List.mem_cons.mp hp with hp1 | hp1 <;>
      rcases List.mem_cons.mp hq with hq1 | hq1
    · subst hp1
      exact absurd (hq1 ▸ rfl) hne
    · subst hp1
      intro hv
      exact h.1 (hv ▸ List.mem_map_of_mem Prod.snd hq1)
    · subst hq1
      intro hv
      exact h.1 (hv ▸ List.mem_map_of_mem Prod.snd hp1)
    · exact ih h.2 hp1 hq1

theorem nextFreeAux_ge : ∀ (fuel : Nat) (used : List Int) (n : Int),
    n ≤ nextFreeAux fuel used n := by
  intro fuel
  induction fuel with
  | zero => intro used n; exact le_refl n
  | succ fuel ih =>
    intro used n
    rw [nextFreeAux]
    by_cases h : n ∈ used
    · rw [if_pos h]
      exact le_trans (by omega) (ih (used.erase n) (n + 1))
    · rw [if_neg h]

theorem nextFreeAux_not_mem : ∀ (fuel : Nat) (used : List Int) (n : Int),
    used.length ≤ fuel → nextFreeAux fuel used n ∉ used := by
  intro fuel
  induction fuel with
  | zero =>
    intro used n hlen
    have : used = [] := List.length_eq_zero.mp (Nat.le_zero.mp hlen)
    subst this
    exact List.not_mem_nil n
  | succ fuel ih =>
    intro used n hlen
    rw [nextFreeAux]
    by_cases h : n ∈ used
    · rw [if_pos h]
      intro hmem
      have herase : nextFreeAux fuel (used.erase n) (n + 1) ∉ used.erase n := by
        apply ih
        rw [List.length_erase_of_mem h]
        omega
      have hne : nextFreeAux fuel (used.erase n) (n + 1) ≠ n := by
        have := nextFreeAux_ge fuel (used.erase n) (n + 1)
        omega
      exact herase ((List.mem_erase_of_ne hne).mpr hmem)
    · rw [if_neg h]
      exact h

theorem nextFree_ge (used : List Int) (n : Int) : n ≤ nextFree used n :=
  nextFreeAux_ge used.length used n

theorem nextFree_not_mem (used : List Int) (n : Int) : nextFree used n ∉ used :=
  nextFreeAux_not_mem used.length used n (le_refl _)

theorem mem_mapSet {β : Type} {m : List (String × β)} {k : String} {v : β}
    {p : String × β} (h : p ∈ mapSet m k v) : p = (k, v) ∨ p ∈ m := by
  induction m with
  | nil =>
    rw [mapSet] at h
    rcases List.mem_singleton.mp h with h1
    exact Or.inl h1
  | cons q rest ih =>
    obtain ⟨k', v'⟩ := q
    by_cases hk : k' = k
    · rw [mapSet, if_pos hk] at h
      rcases List.mem_cons.mp h with h1 | h1
      · exact Or.inl h1
      · exact Or.inr (List.mem_cons_of_mem _ h1)
    · rw [mapSet, if_neg hk] at h
      rcases List.mem_cons.mp h with h1 | h1
      · exact Or.inr (h1 ▸ List.mem_cons_self _ _)
      · rcases ih h1 with h2 | h2
        · exact Or.inl h2
        · exact Or.inr (List.mem_cons_of_mem _ h2)

/-- Specification of one iteration of the assignment loop: under a
well-formed store, with all used ids below `nextId` and the current file's
stored id (if any) not yet used, the step yields a valid fresh-or-kept id,
preserves every existing binding, and keeps the store well-formed. -/
theorem assignStep_spec (st : BackupIdStore) (used : List Int) (f : String)
    (hwf : WF st)
    (hf : ∀ id, mapFind st.byFilename f = some id → id ∉ used) :
    WF (assignStep st used f).2.1 ∧
    st.nextId ≤ (assignStep st used f).2.1.nextId ∧
    mapFind (assignStep st used f).2.1.byFilename f = some (assignStep st used f).1 ∧
    1 ≤ (assignStep st used f).1 ∧
    (assignStep st used f).1 < (assignStep st used f).2.1.nextId ∧
    (assignStep st used f).1 ∉ used ∧
    (∀ f' id', mapFind st.byFilename f' = some id' →
      mapFind (assignStep st used f).2.1.byFilename f' = some id') ∧
    (∀ g, g ≠ f → ∀ id', mapFind (assignStep st used f).2.1.byFilename g = some id' →
      mapFind st.byFilename g = some id' ∧ id' ≠ (assignStep st used f).1) := by
  obtain ⟨hpos, hbounds, hkeysN, hvalsN⟩ := hwf
  cases hfind : mapFind st.byFilename f with
  | some id =>
    have hb : 1 ≤ id ∧ id < st.nextId := hbounds _ (mapFind_mem hfind)
    have hnu : id ∉ used := hf id hfind
    have hstep : assignStep st used f = (id, st, false) := by
      unfold assignStep
      rw [hfind]
      simp only []
      rw [if_pos ⟨by omega, hnu⟩, if_neg (by omega)]
    rw [hstep]
    refine ⟨⟨hpos, hbounds, hkeysN, hvalsN⟩, le_refl _, hfind, hb.1, hb.2, hnu,
      fun f' id' h => h, ?_⟩
    intro g hg id' hid'
    refine ⟨hid', ?_⟩
    exact snd_ne_of_nodup hvalsN (mapFind_mem hid') (mapFind_mem hfind) hg
  | none =>
    have hge : st.nextId ≤ nextFree used st.nextId := nextFree_ge used st.nextId
    have hnm : nextFree used st.nextId ∉ used := nextFree_not_mem used st.nextId
    have happ : mapSet st.byFilename f (nextFree used st.nextId) =
        st.byFilename ++ [(f, nextFree used st.nextId)] :=
      mapSet_of_find_none hfind _
    have hkf : f ∉ st.byFilename.map Prod.fst := not_mem_keys_of_mapFind_none hfind
    have hstep : assignStep st used f =
        (nextFree used st.nextId,
          BackupIdStore.mk (nextFree used st.nextId + 1)
            (mapSet st.byFilename f (nextFree used st.nextId)), true) := by
      unfold assignStep
      rw [hfind]
    rw [hstep]
    have hwf' : WF (BackupIdStore.mk (nextFree used st.nextId + 1)
        (mapSet st.byFilename f (nextFree used st.nextId))) := by
      refine ⟨?_, ?_, ?_, ?_⟩
      · show 1 ≤ nextFree used st.nextId + 1
        omega
      · intro p hp
        rcases mem_mapSet hp with h1 | h1
        · rw [h1]
          constructor
          · show 1 ≤ nextFree used st.nextId
            omega
          · show nextFree used st.nextId < nextFree used st.nextId + 1
            omega
        · have := hbounds _ h1
          constructor
          · exact this.1
          · show p.2 < nextFree used st.nextId + 1
            omega
      · show ((mapSet st.byFilename f (nextFree used st.nextId)).map Prod.fst).Nodup
        rw [happ, List.map_append]
        refine List.Nodup.append hkeysN (List.nodup_singleton f) ?_
        intro x hx hx1
        rw [List.mem_singleton.mp hx1] at hx
        exact hkf hx
      · show ((mapSet st.byFilename f (nextFree used st.nextId)).map Prod.snd).Nodup
        rw [happ, List.map_append]
        refine List.Nodup.append hvalsN (List.nodup_singleton _) ?_
        intro x hx hx1
        rw [List.mem_singleton.mp hx1] at hx
        obtain ⟨p, hp, hpx⟩ := List.mem_map.mp hx
        have := hbounds _ hp
        omega
    refine ⟨hwf', ?_, ?_, ?_, ?_, hnm, ?_, ?_⟩
    · show st.nextId ≤ nextFree used st.nextId + 1
      omega
    · exact mapFind_mapSet_self _ _ _
    · show (1 : Int) ≤ nextFree used st.nextId
      omega
    · show nextFree used st.nextId < nextFree used st.nextId + 1
      omega
    · intro f' id' h
      have hne : f' ≠ f := by
        intro hh
        rw [hh, hfind] at h
        exact Option.noConfusion h
      show mapFind (mapSet st.byFilename f (nextFree used st.nextId)) f' = some id'
      rw [mapFind_mapSet_ne _ _ _ _ hne]
      exact h
    · intro g hg id' hid'
      have hid2 : mapFind st.byFilename g = some id' := by
        rw [show mapFind (mapSet st.byFilename f (nextFree used st.nextId)) g =
            mapFind st.byFilename g from mapFind_mapSet_ne _ _ _ _ hg] at hid'
        exact hid'
      refine ⟨hid2, ?_⟩
      have := hbounds _ (mapFind_mem hid2)
      omega

/-- Specification of the whole assignment loop, by induction along the file
list: the final store is well-formed, `nextId` never decreases, every
pre-existing binding survives untouched, every returned pair is bound in the
final store with an id in `[1, nextId)`, returned ids are pairwise distinct,
the returned filenames are the input in order, and no returned id was in the
incoming `usedIds` set. -/
theorem assignLoop_spec : ∀ (fs : List String) (st : BackupIdStore) (used : List Int)
    (changed : Bool),
    WF st → fs.Nodup →
    (∀ u ∈ used, 1 ≤ u ∧ u < st.nextId) →
    used.Nodup →
    (∀ g ∈ fs, ∀ id, mapFind st.byFilename g = some id → id ∉ used) →
    WF (assignLoop st used changed fs).2.1 ∧
    st.nextId ≤ (assignLoop st used changed fs).2.1.nextId ∧
    (∀ g id, mapFind st.byFilename g = some id →
      mapFind (assignLoop st used changed fs).2.1.byFilename g = some id) ∧
    (∀ p ∈ (assignLoop st used changed fs).1,
      mapFind (assignLoop st used changed fs).2.1.byFilename p.1 = some p.2 ∧
      1 ≤ p.2 ∧ p.2 < (assignLoop st used changed fs).2.1.nextId) ∧
    ((assignLoop st used changed fs).1).Pairwise (fun p q => p.2 ≠ q.2) ∧
    ((assignLoop st used changed fs).1).map Prod.fst = fs ∧
    (∀ p ∈ (assignLoop st used changed fs).1, p.2 ∉ used) := by
  intro fs
  induction fs with
  | nil =>
    intro st used changed hwf _ _ _ _
    exact ⟨hwf, le_refl _, fun g id h => h, by simp [assignLoop],
      by simp [assignLoop], by simp [assignLoop], by simp [assignLoop]⟩
  | cons f rest ih =>
    intro st used changed hwf hnd hused husedN hfresh
    obtain ⟨hndf, hndrest⟩ := List.nodup_cons.mp hnd
    obtain ⟨sWF, sLe, sFind, sGe1, sLt, sNotUsed, sFwd, sBwd⟩ :=
      assignStep_spec st used f hwf (hfresh f (List.mem_cons_self f rest))
    have hused' : ∀ u ∈ (assignStep st used f).1 :: used,
        1 ≤ u ∧ u < (assignStep st used f).2.1.nextId := by
      intro u hu
      rcases List.mem_cons.mp hu with h | h
      · exact ⟨h ▸ sGe1, h ▸ sLt⟩
      · have := hused u h
        exact ⟨this.1, lt_of_lt_of_le this.2 sLe⟩
    have husedN' : ((assignStep st used f).1 :: used).Nodup :=
      List.nodup_cons.mpr ⟨sNotUsed, husedN⟩
    have hfresh' : ∀ g ∈ rest, ∀ id,
        mapFind (assignStep st used f).2.1.byFilename g = some id →
        id ∉ (assignStep st used f).1 :: used := by
      intro g hg id hgid
      have hgf : g ≠ f := fun hh => hndf (hh ▸ hg)
      obtain ⟨hback, hne⟩ := sBwd g hgf id hgid
      intro hmem
      rcases List.mem_cons.mp hmem with h | h
      · exact hne h
      · exact hfresh g (List.mem_cons_of_mem f hg) id hback h
    obtain ⟨rWF, rLe, rFwd, rOut, rPw, rKeys, rNotUsed⟩ :=
      ih (assignStep st used f).2.1 ((assignStep st used f).1 :: used)
        (changed || (assignStep st used f).2.2) sWF hndrest hused' husedN' hfresh'
    have hloop : assignLoop st used changed (f :: rest) =
        ((f, (assignStep st used f).1) ::
            (assignLoop (assignStep st used f).2.1 ((assignStep st used f).1 :: used)
              (changed || (assignStep st used f).2.2) rest).1,
          (assignLoop (assignStep st used f).2.1 ((assignStep st used f).1 :: used)
            (changed || (assignStep st used f).2.2) rest).2.1,
          (assignLoop (assignStep st used f).2.1 ((assignStep st used f).1 :: used)
            (changed || (assignStep st used f).2.2) rest).2.2) := rfl
    rw [hloop]
    refine ⟨rWF, le_trans sLe rLe, ?_, ?_, ?_, ?_, ?_⟩
    · intro g id h
      exact rFwd g id (sFwd g id h)
    · intro p hp
      rcases List.mem_cons.mp hp with h | h
      · subst h
        exact ⟨rFwd f (assignStep st used f).1 sFind, sGe1, lt_of_lt_of_le sLt rLe⟩
      · exact rOut p h
    · refine List.pairwise_cons.mpr ⟨?_, rPw⟩
      intro q hq
      intro hv
      exact rNotUsed q hq (hv ▸ List.mem_cons_self _ _)
    · show f :: ((assignLoop (assignStep st used f).2.1 ((assignStep st used f).1 :: used)
          (changed || (assignStep st used f).2.2) rest).1).map Prod.fst = f :: rest
      rw [rKeys]
    · intro p hp
      rcases List.mem_cons.mp hp with h | h
      · subst h
        exact sNotUsed
      · intro hmem
        exact rNotUsed p h (List.mem_cons_of_mem _ hmem)

theorem sanitizeFold_bound : ∀ (entries : List (String × Option Int))
    (acc : List (String × Int) × Int),
    (∀ p ∈ acc.1, 1 ≤ p.2 ∧ p.2 ≤ acc.2) →
    acc.2 ≤ (entries.foldl sanitizeStep acc).2 ∧
    (∀ p ∈ (entries.foldl sanitizeStep acc).1,
      1 ≤ p.2 ∧ p.2 ≤ (entries.foldl sanitizeStep acc).2) := by
  intro entries
  induction entries with
  | nil =>
    intro acc h
    exact ⟨le_refl _, h⟩
  | cons e rest ih =>
    intro acc h
    rw [List.foldl_cons]
    have hstep : (∀ p ∈ (sanitizeStep acc e).1, 1 ≤ p.2 ∧ p.2 ≤ (sanitizeStep acc e).2) ∧
        acc.2 ≤ (sanitizeStep acc e).2 := by
      unfold sanitizeStep
      cases he : e.2 with
      | none => exact ⟨h, le_refl _⟩
      | some id =>
        simp only []
        by_cases hlt : id < 1
        · rw [if_pos hlt]
          exact ⟨h, le_refl _⟩
        · rw [if_neg hlt]
          refine ⟨?_, le_max_left _ _⟩
          intro p hp
          rcases mem_mapSet hp with h1 | h1
          · rw [h1]
            refine ⟨by omega, ?_⟩
            show id ≤ max acc.2 id
            exact le_max_right _ _
          · have := h p h1
            exact ⟨this.1, le_trans this.2 (le_max_left _ _)⟩
    obtain ⟨ha, hb⟩ := hstep
    obtain ⟨h1, h2⟩ := ih (sanitizeStep acc e) ha
    exact ⟨le_trans hb h1, h2⟩

/-- After sanitization of an arbitrary raw store, every id is at least 1 and
`nextId` strictly exceeds every id. -/
theorem sanitize_sane (raw : RawIdStore) :
    1 ≤ (sanitizeBackupIdStore raw).nextId ∧
    ∀ p ∈ (sanitizeBackupIdStore raw).byFilename,
      1 ≤ p.2 ∧ p.2 < (sanitizeBackupIdStore raw).nextId := by
  obtain ⟨h0, hb⟩ := sanitizeFold_bound raw.byFilename ([], 0) (by simp)
  have hmax : (raw.byFilename.foldl sanitizeStep ([], 0)).2 + 1 ≤
      (sanitizeBackupIdStore raw).nextId := le_max_right _ _
  constructor
  · omega
  · intro p hp
    have := hb p hp
    omega

theorem insertSorted_perm (x : String) (l : List String) :
    (insertSorted x l).Perm (x :: l) := by
  induction l with
  | nil => exact List.Perm.refl _
  | cons y rest ih =>
    rw [insertSorted]
    by_cases h : x < y
    · rw [if_pos h]
    · rw [if_neg h]
      exact List.Perm.trans (List.Perm.cons y ih) (List.Perm.swap x y rest)

theorem sortFilenames_perm (l : List String) : (sortFilenames l).Perm l := by
  induction l with
  | nil => exact List.Perm.refl _
  | cons x rest ih =>
    rw [sortFilenames]
    exact List.Perm.trans (insertSorted_perm x (sortFilenames rest)) (List.Perm.cons x ih)

theorem sortFilenames_nodup {l : List String} (h : l.Nodup) : (sortFilenames l).Nodup :=
  (List.Perm.nodup_iff (sortFilenames_perm l)).mpr h

/-- A run of the assignment loop in which every file already holds a valid,
pairwise-distinct, unconsumed id below `nextId` keeps every id, leaves the
store untouched, and does not raise the changed flag. -/
theorem assignLoop_stable : ∀ (fs : List String) (st : BackupIdStore) (used : List Int)
    (changed : Bool),
    (∀ g ∈ fs, ∃ id, mapFind st.byFilename g = some id ∧ 0 < id ∧ id < st.nextId ∧
      id ∉ used) →
    fs.Pairwise (fun g g' => ∀ a b, mapFind st.byFilename g = some a →
      mapFind st.byFilename g' = some b → a ≠ b) →
    assignLoop st used changed fs =
      (fs.map (fun g => (g, (mapFind st.byFilename g).getD 0)), st, changed) := by
  intro fs
  induction fs with
  | nil =>
    intro st used changed _ _
    rfl
  | cons f rest ih =>
    intro st used changed hall hpw
    obtain ⟨id, hid, hpos, hlt, hnu⟩ := hall f (List.mem_cons_self f rest)
    obtain ⟨hpwf, hpwrest⟩ := List.pairwise_cons.mp hpw
    have hstep : assignStep st used f = (id, st, false) := by
      unfold assignStep
      rw [hid]
      simp only []
      rw [if_pos ⟨hpos, hnu⟩, if_neg (by omega)]
    have hall' : ∀ g ∈ rest, ∃ id', mapFind st.byFilename g = some id' ∧ 0 < id' ∧
        id' < st.nextId ∧ id' ∉ id :: used := by
      intro g hg
      obtain ⟨id', hid', hpos', hlt', hnu'⟩ := hall g (List.mem_cons_of_mem f hg)
      refine ⟨id', hid', hpos', hlt', ?_⟩
      intro hmem
      rcases List.mem_cons.mp hmem with h | h
      · exact hpwf g hg id id' hid hid' h.symm
      · exact hnu' h
    have hrest := ih st (id :: used) changed hall' hpwrest
    have hcons : assignLoop st used changed (f :: rest) =
        ((f, (assignStep st used f).1) ::
            (assignLoop (assignStep st used f).2.1 ((assignStep st used f).1 :: used)
              (changed || (assignStep st used f).2.2) rest).1,
          (assignLoop (assignStep st used f).2.1 ((assignStep st used f).1 :: used)
            (changed || (assignStep st used f).2.2) rest).2.1,
          (assignLoop (assignStep st used f).2.1 ((assignStep st used f).1 :: used)
            (changed || (assignStep st used f).2.2) rest).2.2) := rfl
    rw [hcons, hstep]
    simp only [Bool.or_false]
    rw [hrest]
    simp [hid]

/-- C3: once `assignIds` has assigned an ID to a filename, that binding is
never changed and its ID is never given to a different filename — even after
the file disappears from the artifact set, since bindings are never removed
and fresh IDs always land at or above `nextId`, which strictly exceeds every
ID in the store; and sanitization of an arbitrary raw store read from disk
also yields a store whose `nextId` strictly exceeds every ID present. -/
theorem backupId_registry_invariants :
    (∀ raw : RawIdStore,
      1 ≤ (sanitizeBackupIdStore raw).nextId ∧
      ∀ p ∈ (sanitizeBackupIdStore raw).byFilename,
        1 ≤ p.2 ∧ p.2 < (sanitizeBackupIdStore raw).nextId) ∧
    (∀ (st : BackupIdStore) (backups : List String), WF st → backups.Nodup →
      WF (assignBackupIds st backups).2.1 ∧
      st.nextId ≤ (assignBackupIds st backups).2.1.nextId ∧
      (∀ f id, mapFind st.byFilename f = some id →
        mapFind (assignBackupIds st backups).2.1.byFilename f = some id) ∧
      (∀ p ∈ (assignBackupIds st backups).1,
        mapFind (assignBackupIds st backups).2.1.byFilename p.1 = some p.2 ∧
        1 ≤ p.2 ∧ p.2 < (assignBackupIds st backups).2.1.nextId)) := by
  refine ⟨sanitize_sane, ?_⟩
  intro st backups hwf hnd
  obtain ⟨rWF, rLe, rFwd, rOut, rPw, rKeys, rNot⟩ :=
    assignLoop_spec (sortFilenames backups) st [] false hwf (sortFilenames_nodup hnd)
      (by simp) List.nodup_nil (by simp)
  exact ⟨rWF, rLe, rFwd, rOut⟩

/-- C3 witness: sanitization of a messy raw store, and one assignment round
from the empty well-formed store. -/
theorem backupId_registry_invariants_witness :
    1 ≤ (sanitizeBackupIdStore ⟨some 2, [("x", some 7), ("y", none), ("z", some 0)]⟩).nextId ∧
    WF (assignBackupIds ⟨1, []⟩ ["b.sql.gz", "a.sql.gz"]).2.1 := by
  refine ⟨(backupId_registry_invariants.1 _).1, ?_⟩
  exact (backupId_registry_invariants.2 ⟨1, []⟩ ["b.sql.gz", "a.sql.gz"]
    ⟨by decide, by simp, by simp, by simp⟩ (by simp)).1

theorem pairwise_map_fst {β : Type} (R : String → String → Prop) :
    ∀ {l : List (String × β)}, l.Pairwise (fun p q => R p.1 q.1) →
    (l.map Prod.fst).Pairwise R := by
  intro l
  induction l with
  | nil =>
    intro _
    exact List.Pairwise.nil
  | cons p t ih =>
    intro h
    obtain ⟨hhd, htl⟩ := List.pairwise_cons.mp h
    refine List.pairwise_cons.mpr ⟨?_, ih htl⟩
    intro g hg
    obtain ⟨q, hq, hqg⟩ := List.mem_map.mp hg
    exact hqg ▸ hhd q hq

theorem out_eq_map : ∀ (out : List (String × Int)) (st : BackupIdStore) (fs : List String),
    out.map Prod.fst = fs →
    (∀ p ∈ out, mapFind st.byFilename p.1 = some p.2) →
    fs.map (fun g => (g, (mapFind st.byFilename g).getD 0)) = out := by
  intro out
  induction out with
  | nil =>
    intro st fs h _
    rw [← h]
    rfl
  | cons p out' ih =>
    intro st fs h hall
    rw [← h]
    simp only [List.map_cons]
    have hp := hall p (List.mem_cons_self p out')
    rw [hp]
    have htl := ih st (out'.map Prod.fst) rfl
      (fun q hq => hall q (List.mem_cons_of_mem p hq))
    rw [htl]
    rfl

/-- C4: `assignIds` is deterministic and idempotent — with the same artifact
set and no intervening deletions, a second call returns exactly the same
filename-to-ID annotation, leaves the store it read exactly as it was, and
reports `idStoreChanged = false`, so the store is not written back (it is
persisted only when the mapping changed during the call). -/
theorem assignBackupIds_idempotent (st : BackupIdStore) (backups : List String)
    (hwf : WF st) (hnd : backups.Nodup) :
    (assignBackupIds (assignBackupIds st backups).2.1 backups).1 =
      (assignBackupIds st backups).1 ∧
    (assignBackupIds (assignBackupIds st backups).2.1 backups).2.1 =
      (assignBackupIds st backups).2.1 ∧
    (assignBackupIds (assignBackupIds st backups).2.1 backups).2.2 = false := by
  obtain ⟨rWF, rLe, rFwd, rOut, rPw, rKeys, rNot⟩ :=
    assignLoop_spec (sortFilenames backups) st [] false hwf (sortFilenames_nodup hnd)
      (by simp) List.nodup_nil (by simp)
  have hall : ∀ g ∈ sortFilenames backups, ∃ id,
      mapFind (assignLoop st [] false (sortFilenames backups)).2.1.byFilename g = some id ∧
      0 < id ∧
      id < (assignLoop st [] false (sortFilenames backups)).2.1.nextId ∧
      id ∉ ([] : List Int) := by
    intro g hg
    rw [← rKeys] at hg
    obtain ⟨p, hp, hpg⟩ := List.mem_map.mp hg
    obtain ⟨hfind, h1, h2⟩ := rOut p hp
    exact ⟨p.2, by rw [← hpg]; exact hfind, by omega, h2, by simp⟩
  have hpw2 : (sortFilenames backups).Pairwise (fun g g' => ∀ a b,
      mapFind (assignLoop st [] false (sortFilenames backups)).2.1.byFilename g = some a →
      mapFind (assignLoop st [] false (sortFilenames backups)).2.1.byFilename g' = some b →
      a ≠ b) := by
    have hp1 : ((assignLoop st [] false (sortFilenames backups)).1).Pairwise
        (fun p q => ∀ a b,
          mapFind (assignLoop st [] false (sortFilenames backups)).2.1.byFilename p.1 =
            some a →
          mapFind (assignLoop st [] false (sortFilenames backups)).2.1.byFilename q.1 =
            some b → a ≠ b) := by
      refine List.Pairwise.imp_of_mem ?_ rPw
      intro p q hp hq hne a b ha hb
      rw [(rOut p hp).1] at ha
      rw [(rOut q hq).1] at hb
      cases ha
      cases hb
      exact hne
    have hp2 := pairwise_map_fst (fun g g' => ∀ a b,
      mapFind (assignLoop st [] false (sortFilenames backups)).2.1.byFilename g = some a →
      mapFind (assignLoop st [] false (sortFilenames backups)).2.1.byFilename g' = some b →
      a ≠ b) hp1
    rw [rKeys] at hp2
    exact hp2
  have hstable := assignLoop_stable (sortFilenames backups)
    (assignLoop st [] false (sortFilenames backups)).2.1 [] false hall hpw2
  refine ⟨?_, ?_, ?_⟩
  · show (assignLoop (assignLoop st [] false (sortFilenames backups)).2.1 [] false
        (sortFilenames backups)).1 =
      (assignLoop st [] false (sortFilenames backups)).1
    rw [hstable]
    exact out_eq_map (assignLoop st [] false (sortFilenames backups)).1
      (assignLoop st [] false (sortFilenames backups)).2.1
      (sortFilenames backups) rKeys (fun p hp => (rOut p hp).1)
  · show (assignLoop (assignLoop st [] false (sortFilenames backups)).2.1 [] false
        (sortFilenames backups)).2.1 =
      (assignLoop st [] false (sortFilenames backups)).2.1
    rw [hstable]
  · show (assignLoop (assignLoop st [] false (sortFilenames backups)).2.1 [] false
        (sortFilenames backups)).2.2 =
      false
    rw [hstable]

/-- C4 witness: two rounds from the empty store over two artifacts. -/
theorem assignBackupIds_idempotent_witness :
    (assignBackupIds (assignBackupIds ⟨1, []⟩ ["b.sql.gz", "a.sql.gz"]).2.1
      ["b.sql.gz", "a.sql.gz"]).1 =
      (assignBackupIds ⟨1, []⟩ ["b.sql.gz", "a.sql.gz"]).1 ∧
    (assignBackupIds (assignBackupIds ⟨1, []⟩ ["b.sql.gz", "a.sql.gz"]).2.1
      ["b.sql.gz", "a.sql.gz"]).2.2 = false := by
  have h := assignBackupIds_idempotent ⟨1, []⟩ ["b.sql.gz", "a.sql.gz"]
    ⟨by decide, by simp, by simp, by simp⟩ (by simp)
  exact ⟨h.1, h.2.2⟩

/-! ### Backup status and liveness probe (dev-reload.js 519-574)

The status directory is a list of `(filename, contents)` pairs; `corrupt`
models contents that fail `JSON.parse` (ignored, file kept). Process liveness
(`process.kill(pid, 0)`) is a function `alive : Int → Bool`.
-/

structure StatusRecord where
  database : Option String
  started : Option String
  pid : Option Int
  deriving DecidableEq, Repr

inductive StatusContent where
  | corrupt
  | parsed (r : StatusRecord)
  deriving DecidableEq

structure BackupStatusEntry where
  database : String
  started : Option String
  pid : Option Int
  deriving DecidableEq, Repr

/-- `file.startsWith(pre)`. -/
def strStartsWith (s pre : String) : Bool := pre.data.isPrefixOf s.data

/-- `file.endsWith(suf)`. -/
def strEndsWith (s suf : String) : Bool := suf.data.isSuffixOf s.data

/-- `file.slice(STATUS_PREFIX.length, -STATUS_SUFFIX.length)` for the status
filename constants `backup-status-` and `.json`. -/
def statusCoreName (file : String) : String :=
  String.mk ((file.data.drop 14).take (file.data.length - 14 - 5))

/-- The database name derived from a parsed record and its filename:
`typeof data.database === "string" && data.database.length > 0 ? data.database
: file.slice(...)`. -/
def derivedDatabase (rcd : StatusRecord) (name : String) : String :=
  match rcd.database with
  | some s => if s.length > 0 then s else statusCoreName name
  | none => statusCoreName name

/-- `listRunningStatuses()`: returns the reported entries and the directory
as it is left on disk (stale records with a dead pid are unlinked). -/
def listRunningStatuses (alive : Int → Bool) :
    List (String × StatusContent) → List BackupStatusEntry × List (String × StatusContent)
  | [] => ([], [])
  | (name, content) :: rest =>
    let r := listRunningStatuses alive rest
    if strStartsWith name "backup-status-" = true ∧ strEndsWith name ".json" = true then
      match content with
      | StatusContent.corrupt => (r.1, (name, content) :: r.2)
      | StatusContent.parsed rcd =>
        if derivedDatabase rcd name = "" then (r.1, (name, content) :: r.2)
        else
          match rcd.pid with
          | some p =>
            if alive p then
              (⟨derivedDatabase rcd name, rcd.started, some p⟩ :: r.1,
                (name, content) :: r.2)
            else (r.1, r.2)
          | none =>
            (⟨derivedDatabase rcd name, rcd.started, none⟩ :: r.1,
              (name, content) :: r.2)
    else (r.1, (name, content) :: r.2)

/-- C5 (amended): `listRunningStatuses` never reports an entry whose pid is
dead, the surviving directory is a subset of the original, and every status
record that derives a NONEMPTY database name and whose pid no longer exists
is deleted from disk (and hence not reported) — within the single probe.
The nonemptiness qualifier is forced by the `if (!database) continue;`
guard, which skips a record before its pid is probed. -/
theorem listRunning_reaps_dead (alive : Int → Bool) (files : List (String × StatusContent)) :
    (∀ e ∈ (listRunningStatuses alive files).1, ∀ p, e.pid = some p → alive p = true) ∧
    (∀ x ∈ (listRunningStatuses alive files).2, x ∈ files) ∧
    (∀ name rcd p, (name, StatusContent.parsed rcd) ∈ files →
      strStartsWith name "backup-status-" = true → strEndsWith name ".json" = true →
      derivedDatabase rcd name ≠ "" → rcd.pid = some p → alive p = false →
      (name, StatusContent.parsed rcd) ∉ (listRunningStatuses alive files).2) := by
  induction files with
  | nil =>
    refine ⟨?_, ?_, ?_⟩ <;> simp [listRunningStatuses]
  | cons hd rest ih =>
    obtain ⟨name, content⟩ := hd
    obtain ⟨ih1, ih2, ih3⟩ := ih
    have hnotkept : ∀ tn trcd tp, (tn, StatusContent.parsed trcd) ∈ (name, content) :: rest →
        strStartsWith tn "backup-status-" = true → strEndsWith tn ".json" = true →
        derivedDatabase trcd tn ≠ "" → trcd.pid = some tp → alive tp = false →
        (tn, StatusContent.parsed trcd) ∉ (listRunningStatuses alive rest).2 := by
      intro tn trcd tp _ h2 h3 h4 h5 h6 hmem
      exact ih3 tn trcd tp (ih2 _ hmem) h2 h3 h4 h5 h6 hmem
    by_cases hmatch : strStartsWith name "backup-status-" = true ∧
        strEndsWith name ".json" = true
    case neg =>
      have heq : listRunningStatuses alive ((name, content) :: rest) =
          ((listRunningStatuses alive rest).1,
            (name, content) :: (listRunningStatuses alive rest).2) := by
        conv_lhs => unfold listRunningStatuses
        simp only []
        rw [if_neg hmatch]
      rw [heq]
      refine ⟨ih1, ?_, ?_⟩
      · intro x hx
        rcases List.mem_cons.mp hx with h | h
        · exact h ▸ List.mem_cons_self _ _
        · exact List.mem_cons_of_mem _ (ih2 x h)
      · intro tn trcd tp h1 h2 h3 h4 h5 h6 hmem
        rcases List.mem_cons.mp hmem with h | h
        · have : tn = name := congrArg Prod.fst h
          exact hmatch (this ▸ ⟨h2, h3⟩)
        · exact hnotkept tn trcd tp h1 h2 h3 h4 h5 h6 h
    case pos =>
      cases content with
      | corrupt =>
        have heq : listRunningStatuses alive ((name, StatusContent.corrupt) :: rest) =
            ((listRunningStatuses alive rest).1,
              (name, StatusContent.corrupt) :: (listRunningStatuses alive rest).2) := by
          conv_lhs => unfold listRunningStatuses
          rw [if_pos hmatch]
        rw [heq]
        refine ⟨ih1, ?_, ?_⟩
        · intro x hx
          rcases List.mem_cons.mp hx with h | h
          · exact h ▸ List.mem_cons_self _ _
          · exact List.mem_cons_of_mem _ (ih2 x h)
        · intro tn trcd tp h1 h2 h3 h4 h5 h6 hmem
          rcases List.mem_cons.mp hmem with h | h
          · exact StatusContent.noConfusion (congrArg Prod.snd h)
          · exact hnotkept tn trcd tp h1 h2 h3 h4 h5 h6 h
      | parsed rcd =>
        by_cases hdb : derivedDatabase rcd name = ""
        case pos =>
          have heq : listRunningStatuses alive ((name, StatusContent.parsed rcd) :: rest) =
              ((listRunningStatuses alive rest).1,
                (name, StatusContent.parsed rcd) :: (listRunningStatuses alive rest).2) := by
            conv_lhs => unfold listRunningStatuses
            rw [if_pos hmatch]
            simp only []
            rw [if_pos hdb]
          rw [heq]
          refine ⟨ih1, ?_, ?_⟩
          · intro x hx
            rcases List.mem_cons.mp hx with h | h
            · exact h ▸ List.mem_cons_self _ _
            · exact List.mem_cons_of_mem _ (ih2 x h)
          · intro tn trcd tp h1 h2 h3 h4 h5 h6 hmem
            rcases List.mem_cons.mp hmem with h | h
            · have h7 : tn = name := congrArg Prod.fst h
              have h8 : StatusContent.parsed trcd = StatusContent.parsed rcd :=
                congrArg Prod.snd h
              have h9 : trcd = rcd := by
                cases h8
                rfl
              exact h4 (by rw [h7, h9]; exact hdb)
            · exact hnotkept tn trcd tp h1 h2 h3 h4 h5 h6 h
        case neg =>
          cases hpid : rcd.pid with
          | none =>
            have heq : listRunningStatuses alive ((name, StatusContent.parsed rcd) :: rest) =
                (⟨derivedDatabase rcd name, rcd.started, none⟩ ::
                    (listRunningStatuses alive rest).1,
                  (name, StatusContent.parsed rcd) ::
                    (listRunningStatuses alive rest).2) := by
              conv_lhs => unfold listRunningStatuses
              rw [if_pos hmatch]
              simp only []
              rw [if_neg hdb, hpid]
            rw [heq]
            refine ⟨?_, ?_, ?_⟩
            · intro e he p hp
              rcases List.mem_cons.mp he with h | h
              · rw [h] at hp
                exact Option.noConfusion hp
              · exact ih1 e h p hp
            · intro x hx
              rcases List.mem_cons.mp hx with h | h
              · exact h ▸ List.mem_cons_self _ _
              · exact List.mem_cons_of_mem _ (ih2 x h)
            · intro tn trcd tp h1 h2 h3 h4 h5 h6 hmem
              rcases List.mem_cons.mp hmem with h | h
              · have h8 : StatusContent.parsed trcd = StatusContent.parsed rcd :=
                  congrArg Prod.snd h
                have h9 : trcd = rcd := by
                  cases h8
                  rfl
                rw [h9, hpid] at h5
                exact Option.noConfusion h5
              · exact hnotkept tn trcd tp h1 h2 h3 h4 h5 h6 h
          | some p =>
            by_cases halive : alive p = true
            case pos =>
              have heq : listRunningStatuses alive
                  ((name, StatusContent.parsed rcd) :: rest) =
                  (⟨derivedDatabase rcd name, rcd.started, some p⟩ ::
                      (listRunningStatuses alive rest).1,
                    (name, StatusContent.parsed rcd) ::
                      (listRunningStatuses alive rest).2) := by
                conv_lhs => unfold listRunningStatuses
                rw [if_pos hmatch]
                simp only []
                rw [if_neg hdb, hpid]
                simp only []
                rw [if_pos halive]
              rw [heq]
              refine ⟨?_, ?_, ?_⟩
              · intro e he q hq
                rcases List.mem_cons.mp he with h | h
                · rw [h] at hq
                  cases hq
                  exact halive
                · exact ih1 e h q hq
              · intro x hx
                rcases List.mem_cons.mp hx with h | h
                · exact h ▸ List.mem_cons_self _ _
                · exact List.mem_cons_of_mem _ (ih2 x h)
              · intro tn trcd tp h1 h2 h3 h4 h5 h6 hmem
                rcases List.mem_cons.mp hmem with h | h
                · have h8 : StatusContent.parsed trcd = StatusContent.parsed rcd :=
                    congrArg Prod.snd h
                  have h9 : trcd = rcd := by
                    cases h8
                    rfl
                  rw [h9, hpid] at h5
                  cases h5
                  rw [halive] at h6
                  exact Bool.noConfusion h6
                · exact hnotkept tn trcd tp h1 h2 h3 h4 h5 h6 h
            case neg =>
              have halive' : alive p = false := by
                cases hb : alive p with
                | false => rfl
                | true => exact absurd hb halive
              have heq : listRunningStatuses alive
                  ((name, StatusContent.parsed rcd) :: rest) =
                  ((listRunningStatuses alive rest).1,
                    (listRunningStatuses alive rest).2) := by
                conv_lhs => unfold listRunningStatuses
                rw [if_pos hmatch]
                simp only []
                rw [if_neg hdb, hpid]
                simp only []
                rw [halive']
                rfl
              rw [heq]
              refine ⟨ih1, ?_, ?_⟩
              · intro x hx
                exact List.mem_cons_of_mem _ (ih2 x hx)
              · intro tn trcd tp h1 h2 h3 h4 h5 h6 hmem
                exact hnotkept tn trcd tp h1 h2 h3 h4 h5 h6 hmem

/-- C5 witness: a stale record (pid 7, dead) alongside a live one (pid 1):
the stale file is removed and not reported. -/
theorem listRunning_reaps_dead_witness :
    ("backup-status-db1.json",
        StatusContent.parsed ⟨some "db1", some "t0", some 7⟩) ∉
      (listRunningStatuses (fun p => decide (p = 1))
        [("backup-status-db1.json", StatusContent.parsed ⟨some "db1", some "t0", some 7⟩),
         ("backup-status-db2.json",
            StatusContent.parsed ⟨some "db2", some "t1", some 1⟩)]).2 :=
  (listRunning_reaps_dead (fun p => decide (p = 1))
      [("backup-status-db1.json", StatusContent.parsed ⟨some "db1", some "t0", some 7⟩),
       ("backup-status-db2.json",
          StatusContent.parsed ⟨some "db2", some "t1", some 1⟩)]).2.2
    "backup-status-db1.json" ⟨some "db1", some "t0", some 7⟩ 7
    (by decide) (by decide) (by decide) (by decide) (by decide) (by decide)

/-- C5 counterexample: a record that derives an empty database name — the
file is literally `backup-status-.json` and carries no `database` field — is
skipped before the pid probe, so despite its pid being dead it is neither
deleted from disk nor probed, refuting the unqualified claim. -/
theorem listRunning_keeps_dead_unnamed_record :
    ("backup-status-.json", StatusContent.parsed ⟨none, none, some 99⟩) ∈
      (listRunningStatuses (fun _ => false)
        [("backup-status-.json", StatusContent.parsed ⟨none, none, some 99⟩)]).2 ∧
    (fun (_ : Int) => false) 99 = false := by
  refine ⟨?_, rfl⟩
  decide

/-! ### Whole-file writes (writePasswords, writeBackupIdStore)

Both `writePasswords` (dev-reload.js 253-270) and `writeBackupIdStore`
(dev-reload.js 628-631) persist with a single in-place
`fs.writeFile(path, text)`; there is no write-to-temporary-file-then-rename
step. Under POSIX semantics `writeFile` opens with `O_TRUNC` and then writes
the buffer, so an execution that fails mid-write — or a concurrent reader —
can observe any prefix of the new contents. `writeFileObservable` lists the
on-disk states observable during one such write.
-/

def writeFileObservable (text : String) : List String :=
  (List.range (text.data.length + 1)).map fun k => String.mk (text.data.take k)

/-- C7: an in-place `writeFile` of at least two bytes (every
`JSON.stringify(x, null, 2) + "\n"` the credential file and the identity
store receive is longer than that) has an observable state that is neither
the empty truncated file nor the complete new contents — a half-written
state, contradicting the claimed atomic whole-file replacement. -/
theorem writeFile_partial_state_observable (text : String) (h : 2 ≤ text.data.length) :
    ∃ s ∈ writeFileObservable text, s ≠ "" ∧ s ≠ text := by
  refine ⟨String.mk (text.data.take 1), ?_, ?_, ?_⟩
  · unfold writeFileObservable
    exact List.mem_map_of_mem _ (List.mem_range.mpr (by omega))
  · intro hs
    have h2 : text.data.take 1 = [] := congrArg String.data hs
    have h3 := congrArg List.length h2
    simp only [List.length_take, List.length_nil] at h3
    omega
  · intro hs
    have h2 : text.data.take 1 = text.data := congrArg String.data hs
    have h3 := congrArg List.length h2
    simp only [List.length_take] at h3
    omega

/-- C7 witness: a two-byte write has the one-byte state "a" observable. -/
theorem writeFile_partial_state_observable_witness :
    ∃ s ∈ writeFileObservable "ab", s ≠ "" ∧ s ≠ "ab" :=
  writeFile_partial_state_observable "ab" (by decide)

/-! ### Crontab generation

`regenerateCrontabLines` is the current generator (dev-reload.js 380-412):
its job-table lines carry only `AUTH_TOKEN` and `PORT` into the environment.
The password store contents appear as an explicit argument so that
noninterference is expressible; faithfully to the source, the function never
reads it. `regenerateCrontabLegacy` is the generator of the legacy server
(index.ts 137-165), which copies every nonempty `DB_PASS_*` environment
variable into the table.
-/

structure CronScheduleEntry where
  database : String
  cron : String
  deriving DecidableEq, Repr

/-- One `${cron} root /app/scripts/backup.sh ${db} >> ...` line, emitted only
when both fields are truthy. -/
def scheduleLine (sch : CronScheduleEntry) : List String :=
  if sch.database ≠ "" ∧ sch.cron ≠ "" then
    [sch.cron ++ " root /app/scripts/backup.sh " ++ sch.database ++
      " >> /data/logs/backup.log 2>&1"]
  else []

/-- `regenerateCrontab(config)` of the current server. -/
def regenerateCrontabLines (authToken : String) (port : Int)
    (_passwordStore : List (String × String)) (schedules : List CronScheduleEntry) :
    List String :=
  ["# DB Backup - auto-generated, do not edit manually",
   "SHELL=/bin/bash",
   "PATH=/usr/local/bin:/usr/bin:/bin",
   ""] ++
  (if authToken ≠ "" then ["AUTH_TOKEN=" ++ authToken] else []) ++
  ["PORT=" ++ toString port, ""] ++
  schedules.foldr (fun sch acc => scheduleLine sch ++ acc) [] ++
  [""]

/-- `regenerateCrontab(config)` of the legacy server: passes through every
nonempty `DB_PASS_*` environment variable. -/
def regenerateCrontabLegacy (env : List (String × String))
    (schedules : List CronScheduleEntry) : List String :=
  ["# DB Backup - auto-generated, do not edit manually",
   "SHELL=/bin/bash",
   "PATH=/usr/local/bin:/usr/bin:/bin",
   ""] ++
  env.foldr (fun kv acc =>
    (if strStartsWith kv.1 "DB_PASS_" = true ∧ kv.2 ≠ "" then [kv.1 ++ "=" ++ kv.2]
     else []) ++ acc) [] ++
  [""] ++
  schedules.foldr (fun sch acc =>
    (if sch.database ≠ "" ∧ sch.cron ≠ "" then
      [sch.cron ++ " root flock -n /tmp/backup-" ++ sch.database ++
        ".lock /app/scripts/backup.sh " ++ sch.database ++
        " >> /data/logs/backup.log 2>&1"]
     else []) ++ acc) [] ++
  [""]

/-- C8 (amended): the current generator's crontab is independent of the
password store (two runs differing only in stored passwords are identical),
and every line of it is a fixed header, the `AUTH_TOKEN=` line, the `PORT=`
line, a blank, or a schedule line — nothing else enters the job environment.
The restriction to the current generator is forced by the legacy generator,
which copies `DB_PASS_*` values into the table. -/
theorem regenerateCrontab_no_passwords (authToken : String) (port : Int)
    (schedules : List CronScheduleEntry) (pw1 pw2 : List (String × String)) :
    regenerateCrontabLines authToken port pw1 schedules =
      regenerateCrontabLines authToken port pw2 schedules ∧
    (∀ line ∈ regenerateCrontabLines authToken port pw1 schedules,
      line = "# DB Backup - auto-generated, do not edit manually" ∨
      line = "SHELL=/bin/bash" ∨
      line = "PATH=/usr/local/bin:/usr/bin:/bin" ∨
      line = "" ∨
      line = "AUTH_TOKEN=" ++ authToken ∨
      line = "PORT=" ++ toString port ∨
      ∃ sch ∈ schedules, line = sch.cron ++ " root /app/scripts/backup.sh " ++
        sch.database ++ " >> /data/logs/backup.log 2>&1") := by
  refine ⟨rfl, ?_⟩
  have hfold : ∀ (ss : List CronScheduleEntry) (line : String),
      line ∈ ss.foldr (fun sch acc => scheduleLine sch ++ acc) [] →
      ∃ sch ∈ ss, line = sch.cron ++ " root /app/scripts/backup.sh " ++
        sch.database ++ " >> /data/logs/backup.log 2>&1" := by
    intro ss
    induction ss with
    | nil =>
      intro line h
      exact absurd h (List.not_mem_nil line)
    | cons sch rest ih =>
      intro line h
      rw [List.foldr_cons] at h
      rcases List.mem_append.mp h with h1 | h1
      · unfold scheduleLine at h1
        by_cases hc : sch.database ≠ "" ∧ sch.cron ≠ ""
        · rw [if_pos hc] at h1
          exact ⟨sch, List.mem_cons_self _ _, List.mem_singleton.mp h1⟩
        · rw [if_neg hc] at h1
          exact absurd h1 (List.not_mem_nil line)
      · obtain ⟨sch', hmem, hline'⟩ := ih line h1
        exact ⟨sch', List.mem_cons_of_mem _ hmem, hline'⟩
  intro line hline
  unfold regenerateCrontabLines at hline
  rcases List.mem_append.mp hline with h | h
  · rcases List.mem_append.mp h with h | h
    · rcases List.mem_append.mp h with h | h
      · rcases List.mem_append.mp h with h | h
        · simp only [List.mem_cons, List.not_mem_nil, or_false] at h
          rcases h with h | h | h | h
          · exact Or.inl h
          · exact Or.inr (Or.inl h)
          · exact Or.inr (Or.inr (Or.inl h))
          · exact Or.inr (Or.inr (Or.inr (Or.inl h)))
        · by_cases ha : authToken ≠ ""
          · rw [if_pos ha] at h
            exact Or.inr (Or.inr (Or.inr (Or.inr (Or.inl (List.mem_singleton.mp h)))))
          · rw [if_neg ha] at h
            exact absurd h (List.not_mem_nil line)
      · simp only [List.mem_cons, List.not_mem_nil, or_false] at h
        rcases h with h | h
        · exact Or.inr (Or.inr (Or.inr (Or.inr (Or.inr (Or.inl h)))))
        · exact Or.inr (Or.inr (Or.inr (Or.inl h)))
    · exact Or.inr (Or.inr (Or.inr (Or.inr (Or.inr (Or.inr (hfold schedules line h))))))
  · exact Or.inr (Or.inr (Or.inr (Or.inl (List.mem_singleton.mp h))))

/-- C8 witness: the characterization applied to a concrete crontab line. -/
theorem regenerateCrontab_no_passwords_witness :
    "PORT=3500" = "# DB Backup - auto-generated, do not edit manually" ∨
    "PORT=3500" = "SHELL=/bin/bash" ∨
    "PORT=3500" = "PATH=/usr/local/bin:/usr/bin:/bin" ∨
    "PORT=3500" = "" ∨
    "PORT=3500" = "AUTH_TOKEN=" ++ "tok" ∨
    "PORT=3500" = "PORT=" ++ toString (3500 : Int) ∨
    ∃ sch ∈ ([⟨"prod", "0 */6 * * *"⟩] : List CronScheduleEntry),
      "PORT=3500" = sch.cron ++ " root /app/scripts/backup.sh " ++ sch.database ++
        " >> /data/logs/backup.log 2>&1" :=
  (regenerateCrontab_no_passwords "tok" 3500 [⟨"prod", "0 */6 * * *"⟩]
      [("prod", "hunter2")] []).2 "PORT=3500" (by decide)

/-- C8 counterexample: the legacy generator cited by the claim copies
`DB_PASS_*` environment passwords into the crontab, so two runs differing
only in a stored password produce different tables and the password itself
appears in the output. -/
theorem regenerateCrontabLegacy_leaks_passwords :
    regenerateCrontabLegacy [("DB_PASS_PROD", "hunter2")] [] ≠
      regenerateCrontabLegacy [("DB_PASS_PROD", "other")] [] ∧
    "DB_PASS_PROD=hunter2" ∈ regenerateCrontabLegacy [("DB_PASS_PROD", "hunter2")] [] := by
  refine ⟨?_, ?_⟩ <;> decide

end Bakker
